import Mathlib

/-!
Verification of the physical page-frame allocator (`kernel/kalloc.c`).

The allocator state is embedded shallowly:
* `ref_counts` is the per-frame-index reference-count table (C `int`s, so `Int`);
* `freelist` is the intrusive free list, modelled as the list of the base
  addresses of its member frames (head = `kmem.freelist`);
* `free_pages_count` is `kmem.free_pages_count` (a C `int`, so `Int`);
* `fill` records, per frame base address, the last debug byte pattern a
  `memset` wrote over the frame (5 on allocation, 1 on release);
* `output` is the external diagnostic sink: the list of free-page counts
  printed by `printf` so far;
* `events` is the trace of lock acquire/release events, in program order.

`kfree` returns `Option KState`: `none` models the `panic("kfree")` halt.
-/

/-- The two spinlocks of the allocator: `kmem.lock` and `ref_lock`. -/
inductive Lock where
  | kmem : Lock
  | ref : Lock
deriving DecidableEq, BEq

/-- A lock acquire or release event. -/
inductive LockEvent where
  | acq : Lock → LockEvent
  | rel : Lock → LockEvent
deriving DecidableEq, BEq

/-- The allocator state (globals `ref_counts`, `kmem`, plus observation traces). -/
structure KState where
  ref_counts : Nat → Int
  freelist : List Nat
  free_pages_count : Int
  fill : Nat → Option Int
  output : List Int
  events : List LockEvent

attribute [ext] KState

/-- Modelled from the spec: the configuration constants that come from the
headers `riscv.h` / `memlayout.h` and the linker symbol `end`, which are not
part of the given source: the frame size `PGSIZE`, the first address after the
kernel (`end`, here `endAddr`), and the top of physical memory `PHYSTOP`. -/
structure Cfg where
  PGSIZE : Nat
  endAddr : Nat
  PHYSTOP : Nat

/-- Pointwise function update (models writing one array cell). -/
def updf (f : Nat → Int) (i : Nat) (v : Int) : Nat → Int :=
  fun j => if j = i then v else f j

/-- Pointwise update of the fill-pattern map. -/
def updFill (f : Nat → Option Int) (i : Nat) (v : Option Int) : Nat → Option Int :=
  fun j => if j = i then v else f j

/-- `acquire(&l)`: records the event (the lock state itself is not modelled
beyond the event trace, since the embedding is sequential). -/
def acquireK (s : KState) (l : Lock) : KState :=
  { s with events := s.events ++ [LockEvent.acq l] }

/-- `release(&l)`: records the event. -/
def releaseK (s : KState) (l : Lock) : KState :=
  { s with events := s.events ++ [LockEvent.rel l] }

/-- The `printf("Available memory: %d pages\n", kmem.free_pages_count)` call:
appends the printed count to the external diagnostic sink. -/
def emitLine (s : KState) (n : Int) : KState :=
  { s with output := s.output ++ [n] }

/-- `get_ref_index`: the reference-table index of a physical address. -/
def get_ref_index (cfg : Cfg) (pa : Nat) : Nat :=
  pa / cfg.PGSIZE

/-- `kref_inc`: increment the reference count of the frame holding `pa`. -/
def kref_inc (cfg : Cfg) (s : KState) (pa : Nat) : KState :=
  let s1 := acquireK s Lock.ref
  let i := get_ref_index cfg pa
  let s2 := { s1 with ref_counts := updf s1.ref_counts i (s1.ref_counts i + 1) }
  releaseK s2 Lock.ref

/-- `kref_dec`: decrement the reference count of the frame holding `pa` and
return the post-decrement value. -/
def kref_dec (cfg : Cfg) (s : KState) (pa : Nat) : Int × KState :=
  let s1 := acquireK s Lock.ref
  let i := get_ref_index cfg pa
  let s2 := { s1 with ref_counts := updf s1.ref_counts i (s1.ref_counts i - 1) }
  let current_count := s2.ref_counts i
  let s3 := releaseK s2 Lock.ref
  (current_count, s3)

/-- `kfree`: free the page at `pa`.  `none` models `panic("kfree")`. -/
def kfree (cfg : Cfg) (s : KState) (pa : Nat) : Option KState :=
  if pa % cfg.PGSIZE ≠ 0 ∨ pa < cfg.endAddr ∨ cfg.PHYSTOP ≤ pa then
    none
  else
    let r := kref_dec cfg s pa
    if 0 < r.1 then
      some r.2
    else
      -- memset(pa, 1, PGSIZE)
      let s2 := { r.2 with fill := updFill r.2.fill pa (some 1) }
      let s3 := acquireK s2 Lock.kmem
      let s4 := { s3 with freelist := pa :: s3.freelist,
                          free_pages_count := s3.free_pages_count + 1 }
      some (releaseK s4 Lock.kmem)

/-- `kalloc`: pop a page off the free list.  The first component is the
returned pointer (`none` = NULL).  As in the source, the reference-table
write and the status `printf` happen on both branches; only the junk
`memset` is guarded by `if(r)`. -/
def kalloc (cfg : Cfg) (s : KState) : Option Nat × KState :=
  let s1 := acquireK s Lock.kmem
  match s1.freelist with
  | [] =>
      let s3 := releaseK s1 Lock.kmem
      -- r is NULL: no memset, but ref_counts[get_ref_index(0)] is still written
      let s4 := acquireK s3 Lock.ref
      let s5 := { s4 with ref_counts := updf s4.ref_counts (get_ref_index cfg 0) 1 }
      let s6 := releaseK s5 Lock.ref
      let s7 := emitLine s6 s6.free_pages_count
      (none, s7)
  | r :: rest =>
      let s2 := { s1 with freelist := rest,
                          free_pages_count := s1.free_pages_count - 1 }
      let s3 := releaseK s2 Lock.kmem
      -- memset((char*)r, 5, PGSIZE)
      let s4 := { s3 with fill := updFill s3.fill r (some 5) }
      let s5 := acquireK s4 Lock.ref
      let s6 := { s5 with ref_counts := updf s5.ref_counts (get_ref_index cfg r) 1 }
      let s7 := releaseK s6 Lock.ref
      let s8 := emitLine s7 s7.free_pages_count
      (some r, s8)

/-- Modelled from the spec: `PGROUNDUP` from the missing header `riscv.h` —
round an address up to the next frame boundary. -/
def PGROUNDUP (cfg : Cfg) (a : Nat) : Nat :=
  ((a + cfg.PGSIZE - 1) / cfg.PGSIZE) * cfg.PGSIZE

/-- The body of the `freerange` loop, iterated `n` times starting at `p`:
force the reference count to 1, then `kfree` the frame.  A panic inside
`kfree` propagates as `none`. -/
def freerangeLoop (cfg : Cfg) : Nat → Nat → KState → Option KState
  | _, 0, s => some s
  | p, Nat.succ n, s =>
      let s1 := acquireK s Lock.ref
      let s2 := { s1 with ref_counts := updf s1.ref_counts (get_ref_index cfg p) 1 }
      let s3 := releaseK s2 Lock.ref
      match kfree cfg s3 p with
      | none => none
      | some s4 => freerangeLoop cfg (p + cfg.PGSIZE) n s4

/-- `freerange(pa_start, pa_end)`: free every whole frame in the range.
The loop runs while `p + PGSIZE <= pa_end`, i.e. `(pa_end - p0) / PGSIZE`
times from `p0 = PGROUNDUP(pa_start)`. -/
def freerange (cfg : Cfg) (s : KState) (pa_start pa_end : Nat) : Option KState :=
  let p := PGROUNDUP cfg pa_start
  freerangeLoop cfg p ((pa_end - p) / cfg.PGSIZE) s

/-- The boot state: C globals are zero-initialized, no events, no output. -/
def initState : KState :=
  { ref_counts := fun _ => 0
    freelist := []
    free_pages_count := 0
    fill := fun _ => none
    output := []
    events := [] }

/-- `kinit()`: zero the free-page counter and free every frame between the
end of the kernel image and `PHYSTOP`. -/
def kinit (cfg : Cfg) : Option KState :=
  freerange cfg { initState with free_pages_count := 0 } cfg.endAddr cfg.PHYSTOP

/-- A physical address that passes `kfree`'s validation: frame-aligned and
inside the managed range. -/
def isValidPA (cfg : Cfg) (pa : Nat) : Prop :=
  pa % cfg.PGSIZE = 0 ∧ cfg.endAddr ≤ pa ∧ pa < cfg.PHYSTOP

instance (cfg : Cfg) (pa : Nat) : Decidable (isValidPA cfg pa) := by
  unfold isValidPA; infer_instance

/-- The states reachable from boot under call sequences that respect the
operations' preconditions: `kfree` and `kref_inc` are only invoked on a
valid frame address that is currently allocated (count ≥ 1), as §4.5 of the
design trusts callers to do. -/
inductive Reachable (cfg : Cfg) : KState → Prop where
  | init (s : KState) : kinit cfg = some s → Reachable cfg s
  | alloc (s : KState) : Reachable cfg s → Reachable cfg (kalloc cfg s).2
  | free (s s' : KState) (pa : Nat) : Reachable cfg s → isValidPA cfg pa →
      1 ≤ s.ref_counts (get_ref_index cfg pa) →
      kfree cfg s pa = some s' → Reachable cfg s'
  | inc (s : KState) (pa : Nat) : Reachable cfg s → isValidPA cfg pa →
      1 ≤ s.ref_counts (get_ref_index cfg pa) →
      Reachable cfg (kref_inc cfg s pa)

/-- The allocator invariant: the free list holds valid frames, without
duplicates; a valid frame's count is 0 exactly when it is on the free list;
counts of valid frames never go negative; and the counter is the length of
the free list. -/
def AllocInv (cfg : Cfg) (s : KState) : Prop :=
  (∀ pa ∈ s.freelist, isValidPA cfg pa) ∧
  s.freelist.Nodup ∧
  (∀ pa, isValidPA cfg pa →
    (s.ref_counts (get_ref_index cfg pa) = 0 ↔ pa ∈ s.freelist)) ∧
  (∀ pa, isValidPA cfg pa → 0 ≤ s.ref_counts (get_ref_index cfg pa)) ∧
  s.free_pages_count = s.freelist.length

/-- The frame base addresses `p, p + PGSIZE, …, p + (n-1)*PGSIZE` that the
`freerange` loop visits, in visiting order. -/
def frameList (cfg : Cfg) (p n : Nat) : List Nat :=
  (List.range n).map (fun k => p + k * cfg.PGSIZE)

/-- `n` successive `kalloc()` calls: the returned pointers in call order,
with the final state. -/
def kallocSeq (cfg : Cfg) (s : KState) : Nat → List (Option Nat) × KState
  | 0 => ([], s)
  | Nat.succ n =>
      let r := kalloc cfg s
      let rest := kallocSeq cfg r.2 n
      (r.1 :: rest.1, rest.2)

/-- The lock events of one `kalloc()` call (identical on both branches). -/
def kallocTrace : List LockEvent :=
  [LockEvent.acq Lock.kmem, LockEvent.rel Lock.kmem,
   LockEvent.acq Lock.ref, LockEvent.rel Lock.ref]

/-- The lock events of one `kref_inc()` call. -/
def krefIncTrace : List LockEvent :=
  [LockEvent.acq Lock.ref, LockEvent.rel Lock.ref]

/-- The lock events of one non-panicking `kfree()` call: the reference-table
critical section, then — only when the frame is recycled — the free-list
critical section. -/
def kfreeTrace (cfg : Cfg) (s : KState) (pa : Nat) : List LockEvent :=
  if pa % cfg.PGSIZE ≠ 0 ∨ pa < cfg.endAddr ∨ cfg.PHYSTOP ≤ pa then []
  else if 0 < s.ref_counts (get_ref_index cfg pa) - 1 then
    [LockEvent.acq Lock.ref, LockEvent.rel Lock.ref]
  else
    [LockEvent.acq Lock.ref, LockEvent.rel Lock.ref,
     LockEvent.acq Lock.kmem, LockEvent.rel Lock.kmem]

/-- Replay a lock-event trace from a set of held locks: `true` iff no
acquire ever happens while any lock is already held (so, in particular,
neither lock is ever held while the other is acquired). -/
def noNestedAcq : List LockEvent → List Lock → Bool
  | [], _ => true
  | LockEvent.acq l :: rest, held => held.isEmpty && noNestedAcq rest (l :: held)
  | LockEvent.rel l :: rest, held => noNestedAcq rest (held.erase l)

/-- A concrete test configuration: 4096-byte frames, a managed range of
exactly two frames (`[4096, 12288)`, frames 4096 and 8192). -/
def cfg0 : Cfg :=
  { PGSIZE := 4096, endAddr := 4096, PHYSTOP := 12288 }

/-- The state after `kinit()` under `cfg0`. -/
def s0 : KState :=
  (kinit cfg0).get (by rfl)

/-! ### Basic simp lemmas -/

@[simp] theorem updf_same (f : Nat → Int) (i : Nat) (v : Int) : updf f i v i = v := by
  simp [updf]

@[simp] theorem updf_other (f : Nat → Int) (i j : Nat) (v : Int) (h : j ≠ i) :
    updf f i v j = f j := by
  simp [updf, h]

@[simp] theorem acquireK_ref_counts (s : KState) (l : Lock) :
    (acquireK s l).ref_counts = s.ref_counts := rfl

@[simp] theorem acquireK_freelist (s : KState) (l : Lock) :
    (acquireK s l).freelist = s.freelist := rfl

@[simp] theorem acquireK_count (s : KState) (l : Lock) :
    (acquireK s l).free_pages_count = s.free_pages_count := rfl

@[simp] theorem acquireK_fill (s : KState) (l : Lock) :
    (acquireK s l).fill = s.fill := rfl

@[simp] theorem acquireK_output (s : KState) (l : Lock) :
    (acquireK s l).output = s.output := rfl

@[simp] theorem acquireK_events (s : KState) (l : Lock) :
    (acquireK s l).events = s.events ++ [LockEvent.acq l] := rfl

@[simp] theorem releaseK_ref_counts (s : KState) (l : Lock) :
    (releaseK s l).ref_counts = s.ref_counts := rfl

@[simp] theorem releaseK_freelist (s : KState) (l : Lock) :
    (releaseK s l).freelist = s.freelist := rfl

@[simp] theorem releaseK_count (s : KState) (l : Lock) :
    (releaseK s l).free_pages_count = s.free_pages_count := rfl

@[simp] theorem releaseK_fill (s : KState) (l : Lock) :
    (releaseK s l).fill = s.fill := rfl

@[simp] theorem releaseK_output (s : KState) (l : Lock) :
    (releaseK s l).output = s.output := rfl

@[simp] theorem releaseK_events (s : KState) (l : Lock) :
    (releaseK s l).events = s.events ++ [LockEvent.rel l] := rfl

@[simp] theorem emitLine_ref_counts (s : KState) (n : Int) :
    (emitLine s n).ref_counts = s.ref_counts := rfl

@[simp] theorem emitLine_freelist (s : KState) (n : Int) :
    (emitLine s n).freelist = s.freelist := rfl

@[simp] theorem emitLine_count (s : KState) (n : Int) :
    (emitLine s n).free_pages_count = s.free_pages_count := rfl

@[simp] theorem emitLine_fill (s : KState) (n : Int) :
    (emitLine s n).fill = s.fill := rfl

@[simp] theorem emitLine_output (s : KState) (n : Int) :
    (emitLine s n).output = s.output ++ [n] := rfl

@[simp] theorem emitLine_events (s : KState) (n : Int) :
    (emitLine s n).events = s.events := rfl

/-! ### Characterizations of the operations -/

theorem kref_dec_eq (cfg : Cfg) (s : KState) (pa : Nat) :
    kref_dec cfg s pa =
      (s.ref_counts (get_ref_index cfg pa) - 1,
        { s with
          ref_counts := updf s.ref_counts (get_ref_index cfg pa)
            (s.ref_counts (get_ref_index cfg pa) - 1)
          events := s.events ++ [LockEvent.acq Lock.ref, LockEvent.rel Lock.ref] }) := by
  simp [kref_dec, acquireK, releaseK]

theorem kref_inc_eq (cfg : Cfg) (s : KState) (pa : Nat) :
    kref_inc cfg s pa =
      { s with
        ref_counts := updf s.ref_counts (get_ref_index cfg pa)
          (s.ref_counts (get_ref_index cfg pa) + 1)
        events := s.events ++ [LockEvent.acq Lock.ref, LockEvent.rel Lock.ref] } := by
  simp [kref_inc, acquireK, releaseK]

/-- `kalloc` on an empty free list. -/
theorem kalloc_nil (cfg : Cfg) (s : KState) (h : s.freelist = []) :
    kalloc cfg s =
      (none,
        { s with
          ref_counts := updf s.ref_counts (get_ref_index cfg 0) 1
          output := s.output ++ [s.free_pages_count]
          events := s.events ++ [LockEvent.acq Lock.kmem, LockEvent.rel Lock.kmem,
            LockEvent.acq Lock.ref, LockEvent.rel Lock.ref] }) := by
  simp only [kalloc, acquireK_freelist, h]
  simp [acquireK, releaseK, emitLine]
  exact h

/-- `kalloc` on a non-empty free list pops the head. -/
theorem kalloc_cons (cfg : Cfg) (s : KState) (r : Nat) (rest : List Nat)
    (h : s.freelist = r :: rest) :
    kalloc cfg s =
      (some r,
        { s with
          freelist := rest
          free_pages_count := s.free_pages_count - 1
          fill := updFill s.fill r (some 5)
          ref_counts := updf s.ref_counts (get_ref_index cfg r) 1
          output := s.output ++ [s.free_pages_count - 1]
          events := s.events ++ [LockEvent.acq Lock.kmem, LockEvent.rel Lock.kmem,
            LockEvent.acq Lock.ref, LockEvent.rel Lock.ref] }) := by
  simp only [kalloc, acquireK_freelist, h]
  simp [acquireK, releaseK, emitLine]

/-- `kfree` on an invalid address panics. -/
theorem kfree_invalid (cfg : Cfg) (s : KState) (pa : Nat) (h : ¬ isValidPA cfg pa) :
    kfree cfg s pa = none := by
  unfold isValidPA at h
  unfold kfree
  rw [if_pos]
  omega

/-- `kfree` on a valid address whose post-decrement count stays positive:
only the count (and the lock trace) change. -/
theorem kfree_valid_pos (cfg : Cfg) (s : KState) (pa : Nat) (hv : isValidPA cfg pa)
    (hc : 0 < s.ref_counts (get_ref_index cfg pa) - 1) :
    kfree cfg s pa =
      some
        { s with
          ref_counts := updf s.ref_counts (get_ref_index cfg pa)
            (s.ref_counts (get_ref_index cfg pa) - 1)
          events := s.events ++ [LockEvent.acq Lock.ref, LockEvent.rel Lock.ref] } := by
  obtain ⟨h1, h2, h3⟩ := hv
  unfold kfree
  rw [if_neg (by omega), kref_dec_eq]
  simp only []
  rw [if_pos hc]

/-- `kfree` on a valid address whose post-decrement count is ≤ 0: the frame
is filled with the release pattern and pushed onto the free list. -/
theorem kfree_valid_recycle (cfg : Cfg) (s : KState) (pa : Nat) (hv : isValidPA cfg pa)
    (hc : s.ref_counts (get_ref_index cfg pa) - 1 ≤ 0) :
    kfree cfg s pa =
      some
        { s with
          ref_counts := updf s.ref_counts (get_ref_index cfg pa)
            (s.ref_counts (get_ref_index cfg pa) - 1)
          fill := updFill s.fill pa (some 1)
          freelist := pa :: s.freelist
          free_pages_count := s.free_pages_count + 1
          events := s.events ++ [LockEvent.acq Lock.ref, LockEvent.rel Lock.ref,
            LockEvent.acq Lock.kmem, LockEvent.rel Lock.kmem] } := by
  obtain ⟨h1, h2, h3⟩ := hv
  unfold kfree
  rw [if_neg (by omega), kref_dec_eq]
  simp only []
  rw [if_neg (by omega)]
  simp [acquireK, releaseK]

/-! ### Invariant preservation -/

/-- Frame-aligned addresses with the same reference-table index are equal. -/
theorem aligned_eq_of_index_eq (cfg : Cfg) (hPG : 0 < cfg.PGSIZE) {pa qa : Nat}
    (ha : pa % cfg.PGSIZE = 0) (hb : qa % cfg.PGSIZE = 0)
    (h : get_ref_index cfg pa = get_ref_index cfg qa) : pa = qa := by
  have h1 : pa / cfg.PGSIZE * cfg.PGSIZE = pa :=
    Nat.div_mul_cancel (Nat.dvd_of_mod_eq_zero ha)
  have h2 : qa / cfg.PGSIZE * cfg.PGSIZE = qa :=
    Nat.div_mul_cancel (Nat.dvd_of_mod_eq_zero hb)
  unfold get_ref_index at h
  rw [← h1, ← h2, h]

theorem AllocInv_kalloc (cfg : Cfg) (s : KState) (hPG : 0 < cfg.PGSIZE)
    (hInv : AllocInv cfg s) : AllocInv cfg (kalloc cfg s).2 := by
  obtain ⟨hvalid, hnodup, hiff, hnn, hcnt⟩ := hInv
  cases hfl : s.freelist with
  | nil =>
      rw [kalloc_nil cfg s hfl]
      refine ⟨?_, ?_, ?_, ?_, ?_⟩
      · intro pa hpa; exact hvalid pa hpa
      · exact hnodup
      · intro pa hpav
        have hold := hiff pa hpav
        rw [hfl] at hold
        simp only [List.not_mem_nil, iff_false] at hold
        simp only [hfl, List.not_mem_nil, iff_false, updf]
        split
        · omega
        · exact hold
      · intro pa hpav
        have := hnn pa hpav
        simp only [updf]
        split
        · omega
        · exact this
      · exact hcnt
  | cons r rest =>
      rw [kalloc_cons cfg s r rest hfl]
      have hrv : isValidPA cfg r := hvalid r (by rw [hfl]; exact List.mem_cons_self r rest)
      have hnodup' : r ∉ rest ∧ rest.Nodup := by
        rw [hfl] at hnodup; exact List.nodup_cons.mp hnodup
      refine ⟨?_, hnodup'.2, ?_, ?_, ?_⟩
      · intro pa hpa
        exact hvalid pa (by rw [hfl]; exact List.mem_cons_of_mem r hpa)
      · intro pa hpav
        simp only [updf]
        split
        · rename_i hidx
          have : pa = r := aligned_eq_of_index_eq cfg hPG hpav.1 hrv.1 hidx
          subst this
          constructor
          · intro h01; omega
          · intro hmem; exact absurd hmem hnodup'.1
        · rename_i hidx
          have hold := hiff pa hpav
          rw [hfl] at hold
          have hpane : pa ≠ r := by
            intro he; subst he
            exact hidx rfl
          rw [hold]
          simp [hpane]
      · intro pa hpav
        simp only [updf]
        split
        · omega
        · exact hnn pa hpav
      · have : s.free_pages_count = ((r :: rest).length : Int) := by rw [← hfl]; exact hcnt
        simp only [List.length_cons] at this
        push_cast at this ⊢
        omega

theorem AllocInv_kfree (cfg : Cfg) (s s' : KState) (pa : Nat) (hPG : 0 < cfg.PGSIZE)
    (hInv : AllocInv cfg s) (hv : isValidPA cfg pa)
    (hc : 1 ≤ s.ref_counts (get_ref_index cfg pa))
    (hs' : kfree cfg s pa = some s') : AllocInv cfg s' := by
  obtain ⟨hvalid, hnodup, hiff, hnn, hcnt⟩ := hInv
  have hnotmem : pa ∉ s.freelist := by
    intro hmem
    have := (hiff pa hv).mpr hmem
    omega
  by_cases hpos : 0 < s.ref_counts (get_ref_index cfg pa) - 1
  · rw [kfree_valid_pos cfg s pa hv hpos] at hs'
    injection hs' with hs'
    subst hs'
    refine ⟨hvalid, hnodup, ?_, ?_, hcnt⟩
    · intro qa hqav
      simp only [updf]
      split
      · rename_i hidx
        have : qa = pa := aligned_eq_of_index_eq cfg hPG hqav.1 hv.1 hidx
        subst this
        constructor
        · intro h0; omega
        · intro hmem; exact absurd hmem hnotmem
      · exact hiff qa hqav
    · intro qa hqav
      simp only [updf]
      split
      · omega
      · exact hnn qa hqav
  · rw [kfree_valid_recycle cfg s pa hv (by omega)] at hs'
    injection hs' with hs'
    subst hs'
    have hzero : s.ref_counts (get_ref_index cfg pa) - 1 = 0 := by omega
    refine ⟨?_, ?_, ?_, ?_, ?_⟩
    · intro qa hqa
      simp only [List.mem_cons] at hqa
      rcases hqa with h | h
      · subst h; exact hv
      · exact hvalid qa h
    · exact List.nodup_cons.mpr ⟨hnotmem, hnodup⟩
    · intro qa hqav
      simp only [updf, List.mem_cons]
      split
      · rename_i hidx
        have : qa = pa := aligned_eq_of_index_eq cfg hPG hqav.1 hv.1 hidx
        subst this
        simp [hzero]
      · rename_i hidx
        have hqane : qa ≠ pa := by
          intro he; subst he; exact hidx rfl
        rw [hiff qa hqav]
        simp [hqane]
    · intro qa hqav
      simp only [updf]
      split
      · omega
      · exact hnn qa hqav
    · simp only [List.length_cons]
      push_cast
      omega

theorem AllocInv_kref_inc (cfg : Cfg) (s : KState) (pa : Nat) (hPG : 0 < cfg.PGSIZE)
    (hInv : AllocInv cfg s) (hv : isValidPA cfg pa)
    (hc : 1 ≤ s.ref_counts (get_ref_index cfg pa)) :
    AllocInv cfg (kref_inc cfg s pa) := by
  obtain ⟨hvalid, hnodup, hiff, hnn, hcnt⟩ := hInv
  have hnotmem : pa ∉ s.freelist := by
    intro hmem
    have := (hiff pa hv).mpr hmem
    omega
  rw [kref_inc_eq]
  refine ⟨hvalid, hnodup, ?_, ?_, hcnt⟩
  · intro qa hqav
    simp only [updf]
    split
    · rename_i hidx
      have : qa = pa := aligned_eq_of_index_eq cfg hPG hqav.1 hv.1 hidx
      subst this
      constructor
      · intro h0; omega
      · intro hmem; exact absurd hmem hnotmem
    · exact hiff qa hqav
  · intro qa hqav
    simp only [updf]
    split
    · omega
    · exact hnn qa hqav

/-! ### The frames of a range -/

theorem frameList_succ (cfg : Cfg) (p n : Nat) :
    frameList cfg p (n + 1) = p :: frameList cfg (p + cfg.PGSIZE) n := by
  unfold frameList
  rw [List.range_succ_eq_map, List.map_cons, List.map_map]
  refine congrArg₂ _ (by simp) ?_
  refine List.map_congr_left ?_
  intro k _
  simp [Function.comp]
  ring

@[simp] theorem frameList_length (cfg : Cfg) (p n : Nat) :
    (frameList cfg p n).length = n := by
  simp [frameList]

theorem mem_frameList (cfg : Cfg) (hPG : 0 < cfg.PGSIZE) :
    ∀ (n p pa : Nat), p % cfg.PGSIZE = 0 →
      (pa ∈ frameList cfg p n ↔
        pa % cfg.PGSIZE = 0 ∧ p ≤ pa ∧ pa < p + n * cfg.PGSIZE) := by
  intro n
  induction n with
  | zero =>
      intro p pa _
      simp only [frameList, List.range_zero, List.map_nil, List.not_mem_nil, false_iff]
      intro ⟨_, h1, h2⟩
      omega
  | succ n ih =>
      intro p pa hp
      rw [frameList_succ, List.mem_cons,
        ih (p + cfg.PGSIZE) pa (by rw [Nat.add_mod_right]; exact hp)]
      have hring : p + (n + 1) * cfg.PGSIZE = (p + cfg.PGSIZE) + n * cfg.PGSIZE := by ring
      constructor
      · rintro (h | ⟨h1, h2, h3⟩)
        · subst h
          exact ⟨hp, Nat.le_refl _, by omega⟩
        · exact ⟨h1, by omega, by omega⟩
      · rintro ⟨h1, h2, h3⟩
        rcases Nat.eq_or_lt_of_le h2 with he | hlt
        · exact Or.inl he.symm
        · refine Or.inr ⟨h1, ?_, by omega⟩
          have hd : cfg.PGSIZE ∣ pa - p :=
            Nat.dvd_sub' (Nat.dvd_of_mod_eq_zero h1) (Nat.dvd_of_mod_eq_zero hp)
          have : cfg.PGSIZE ≤ pa - p := Nat.le_of_dvd (by omega) hd
          omega

theorem frameList_nodup (cfg : Cfg) (hPG : 0 < cfg.PGSIZE) (p n : Nat) :
    (frameList cfg p n).Nodup := by
  refine List.Nodup.map ?_ (List.nodup_range n)
  intro a b hab
  simp only [] at hab
  exact Nat.eq_of_mul_eq_mul_right hPG (Nat.add_left_cancel hab)

/-! ### Rounding up to a frame boundary -/

theorem PGROUNDUP_mod (cfg : Cfg) (a : Nat) : PGROUNDUP cfg a % cfg.PGSIZE = 0 := by
  unfold PGROUNDUP
  exact Nat.mul_mod_left _ _

theorem le_PGROUNDUP (cfg : Cfg) (hPG : 0 < cfg.PGSIZE) (a : Nat) : a ≤ PGROUNDUP cfg a := by
  unfold PGROUNDUP
  rcases Nat.eq_zero_or_pos a with h | h
  · simp [h]
  · have h1 : a + cfg.PGSIZE - 1 = (a - 1) + cfg.PGSIZE := by omega
    rw [h1, Nat.add_div_right _ hPG]
    have h2 := Nat.div_add_mod (a - 1) cfg.PGSIZE
    have h3 : (a - 1) % cfg.PGSIZE < cfg.PGSIZE := Nat.mod_lt _ hPG
    calc a = (a - 1) + 1 := by omega
    _ = cfg.PGSIZE * ((a - 1) / cfg.PGSIZE) + ((a - 1) % cfg.PGSIZE + 1) := by omega
    _ ≤ cfg.PGSIZE * ((a - 1) / cfg.PGSIZE) + cfg.PGSIZE :=
        Nat.add_le_add_left (by omega) _
    _ = ((a - 1) / cfg.PGSIZE + 1) * cfg.PGSIZE := by ring

theorem PGROUNDUP_le_of_aligned (cfg : Cfg) (hPG : 0 < cfg.PGSIZE) {a b : Nat}
    (hab : a ≤ b) (hb : b % cfg.PGSIZE = 0) : PGROUNDUP cfg a ≤ b := by
  obtain ⟨q, hq⟩ := Nat.dvd_of_mod_eq_zero hb
  unfold PGROUNDUP
  have hab' : a ≤ cfg.PGSIZE * q := by rw [← hq]; exact hab
  have h1 : a + cfg.PGSIZE - 1 ≤ cfg.PGSIZE * q + (cfg.PGSIZE - 1) := by omega
  have h2 : (a + cfg.PGSIZE - 1) / cfg.PGSIZE ≤ q := by
    have h3 : (cfg.PGSIZE * q + (cfg.PGSIZE - 1)) / cfg.PGSIZE
        = q + (cfg.PGSIZE - 1) / cfg.PGSIZE := Nat.mul_add_div hPG _ _
    have h4 : (cfg.PGSIZE - 1) / cfg.PGSIZE = 0 := Nat.div_eq_of_lt (by omega)
    have h5 : (a + cfg.PGSIZE - 1) / cfg.PGSIZE
        ≤ (cfg.PGSIZE * q + (cfg.PGSIZE - 1)) / cfg.PGSIZE := Nat.div_le_div_right h1
    omega
  calc (a + cfg.PGSIZE - 1) / cfg.PGSIZE * cfg.PGSIZE
      ≤ q * cfg.PGSIZE := Nat.mul_le_mul_right _ h2
  _ = b := by rw [hq, Nat.mul_comm]

theorem PGROUNDUP_eq_of_aligned (cfg : Cfg) (hPG : 0 < cfg.PGSIZE) {a : Nat}
    (ha : a % cfg.PGSIZE = 0) : PGROUNDUP cfg a = a :=
  Nat.le_antisymm (PGROUNDUP_le_of_aligned cfg hPG (Nat.le_refl a) ha)
    (le_PGROUNDUP cfg hPG a)

/-! ### Initialization establishes the invariant -/

/-- One iteration of the `freerange` loop on a valid frame: the forced
count of 1 is decremented to 0, so `kfree` recycles the frame. -/
theorem freerangeLoop_body (cfg : Cfg) (s : KState) (p n : Nat) (hv : isValidPA cfg p) :
    freerangeLoop cfg p (n + 1) s =
      freerangeLoop cfg (p + cfg.PGSIZE) n
        { s with
          ref_counts := updf s.ref_counts (get_ref_index cfg p) 0
          fill := updFill s.fill p (some 1)
          freelist := p :: s.freelist
          free_pages_count := s.free_pages_count + 1
          events := s.events ++ [LockEvent.acq Lock.ref, LockEvent.rel Lock.ref,
            LockEvent.acq Lock.ref, LockEvent.rel Lock.ref,
            LockEvent.acq Lock.kmem, LockEvent.rel Lock.kmem] } := by
  simp only [freerangeLoop]
  rw [kfree_valid_recycle cfg _ p hv (by simp)]
  refine congrArg (freerangeLoop cfg (p + cfg.PGSIZE) n) ?_
  ext j
  · simp [updf, acquireK, releaseK]
    split <;> rfl
  · simp [acquireK, releaseK]
  · simp [acquireK, releaseK]
  · simp [updFill, acquireK, releaseK]
  · simp [acquireK, releaseK]
  · simp [acquireK, releaseK]

/-- Running the `freerange` loop over `n` in-range frames succeeds and
produces exactly those frames on the free list (in reverse visiting
order), zeroes their counts, bumps the counter by `n`, and touches no
other count. -/
theorem freerangeLoop_sound (cfg : Cfg) (hPG : 0 < cfg.PGSIZE) :
    ∀ (n p : Nat) (s : KState), p % cfg.PGSIZE = 0 → cfg.endAddr ≤ p →
      p + n * cfg.PGSIZE ≤ cfg.PHYSTOP →
      ∃ s', freerangeLoop cfg p n s = some s' ∧
        s'.freelist = (frameList cfg p n).reverse ++ s.freelist ∧
        s'.free_pages_count = s.free_pages_count + n ∧
        (∀ k, k < n → s'.ref_counts ((p + k * cfg.PGSIZE) / cfg.PGSIZE) = 0) ∧
        (∀ i, (∀ k, k < n → i ≠ (p + k * cfg.PGSIZE) / cfg.PGSIZE) →
          s'.ref_counts i = s.ref_counts i) := by
  intro n
  induction n with
  | zero =>
      intro p s _ _ _
      refine ⟨s, rfl, by simp [frameList], by simp, ?_, ?_⟩
      · intro k hk; omega
      · intro i _; rfl
  | succ n ih =>
      intro p s hal hlo hhi
      have hPGle : cfg.PGSIZE ≤ (n + 1) * cfg.PGSIZE := by
        calc cfg.PGSIZE = 1 * cfg.PGSIZE := (Nat.one_mul _).symm
        _ ≤ (n + 1) * cfg.PGSIZE := Nat.mul_le_mul_right _ (by omega)
      have hv : isValidPA cfg p := ⟨hal, hlo, by omega⟩
      have hring : p + (n + 1) * cfg.PGSIZE = (p + cfg.PGSIZE) + n * cfg.PGSIZE := by ring
      rw [freerangeLoop_body cfg s p n hv]
      obtain ⟨s', heq, hfl, hcnt, hzero, hother⟩ :=
        ih (p + cfg.PGSIZE)
          { s with
            ref_counts := updf s.ref_counts (get_ref_index cfg p) 0
            fill := updFill s.fill p (some 1)
            freelist := p :: s.freelist
            free_pages_count := s.free_pages_count + 1
            events := s.events ++ [LockEvent.acq Lock.ref, LockEvent.rel Lock.ref,
              LockEvent.acq Lock.ref, LockEvent.rel Lock.ref,
              LockEvent.acq Lock.kmem, LockEvent.rel Lock.kmem] }
          (by rw [Nat.add_mod_right]; exact hal) (by omega) (by omega)
      have hidx : ∀ m : Nat, (p + m * cfg.PGSIZE) / cfg.PGSIZE = p / cfg.PGSIZE + m :=
        fun m => Nat.add_mul_div_right p m hPG
      refine ⟨s', heq, ?_, ?_, ?_, ?_⟩
      · rw [hfl, frameList_succ]
        simp
      · rw [hcnt]
        simp only []
        push_cast
        ring
      · intro k hk
        match k with
        | 0 =>
            have hne : ∀ j, j < n → p / cfg.PGSIZE ≠ (p + cfg.PGSIZE + j * cfg.PGSIZE) / cfg.PGSIZE := by
              intro j _
              have h1 : p + cfg.PGSIZE + j * cfg.PGSIZE = p + (j + 1) * cfg.PGSIZE := by ring
              rw [h1, hidx]
              omega
            have := hother (p / cfg.PGSIZE) (by
              intro j hj
              exact hne j hj)
            simp only [Nat.zero_mul, Nat.add_zero]
            rw [this]
            simp [updf, get_ref_index]
        | Nat.succ j =>
            have h1 : p + (j + 1) * cfg.PGSIZE = (p + cfg.PGSIZE) + j * cfg.PGSIZE := by ring
            rw [h1]
            exact hzero j (by omega)
      · intro i hi
        have h0 : i ≠ p / cfg.PGSIZE := by
          have := hi 0 (by omega)
          simpa using this
        have hrest : ∀ k, k < n → i ≠ (p + cfg.PGSIZE + k * cfg.PGSIZE) / cfg.PGSIZE := by
          intro k hk
          have h1 : p + cfg.PGSIZE + k * cfg.PGSIZE = p + (k + 1) * cfg.PGSIZE := by ring
          rw [h1]
          exact hi (k + 1) (by omega)
        rw [hother i hrest]
        simp [updf, get_ref_index, h0]

/-- Any frame-aligned address at or above `endAddr` is at or above the
rounded-up start of the managed window. -/
theorem roundup_le_valid (cfg : Cfg) (hPG : 0 < cfg.PGSIZE) {pa : Nat}
    (hal : pa % cfg.PGSIZE = 0) (hge : cfg.endAddr ≤ pa) :
    PGROUNDUP cfg cfg.endAddr ≤ pa :=
  PGROUNDUP_le_of_aligned cfg hPG hge hal

/-- `kinit` succeeds and establishes the allocator invariant (provided the
top of physical memory is frame-aligned, as it is in the kernel layout). -/
theorem kinit_sound (cfg : Cfg) (hPG : 0 < cfg.PGSIZE)
    (hTop : cfg.PHYSTOP % cfg.PGSIZE = 0) :
    ∃ s, kinit cfg = some s ∧ AllocInv cfg s := by
  unfold kinit freerange
  have hp0al : PGROUNDUP cfg cfg.endAddr % cfg.PGSIZE = 0 := PGROUNDUP_mod cfg _
  have hp0ge : cfg.endAddr ≤ PGROUNDUP cfg cfg.endAddr := le_PGROUNDUP cfg hPG _
  by_cases hcase : PGROUNDUP cfg cfg.endAddr ≤ cfg.PHYSTOP
  · have hdvd : cfg.PGSIZE ∣ (cfg.PHYSTOP - PGROUNDUP cfg cfg.endAddr) :=
      Nat.dvd_sub' (Nat.dvd_of_mod_eq_zero hTop) (Nat.dvd_of_mod_eq_zero hp0al)
    have hnmul : (cfg.PHYSTOP - PGROUNDUP cfg cfg.endAddr) / cfg.PGSIZE * cfg.PGSIZE
        = cfg.PHYSTOP - PGROUNDUP cfg cfg.endAddr := Nat.div_mul_cancel hdvd
    have hhi : PGROUNDUP cfg cfg.endAddr
        + (cfg.PHYSTOP - PGROUNDUP cfg cfg.endAddr) / cfg.PGSIZE * cfg.PGSIZE
        ≤ cfg.PHYSTOP := by omega
    obtain ⟨s', heq, hfl, hcnt, hzero, hother⟩ :=
      freerangeLoop_sound cfg hPG ((cfg.PHYSTOP - PGROUNDUP cfg cfg.endAddr) / cfg.PGSIZE)
        (PGROUNDUP cfg cfg.endAddr) { initState with free_pages_count := 0 }
        hp0al hp0ge hhi
    have hallzero : ∀ i, s'.ref_counts i = 0 := by
      intro i
      by_cases hi : ∀ k, k < (cfg.PHYSTOP - PGROUNDUP cfg cfg.endAddr) / cfg.PGSIZE →
          i ≠ (PGROUNDUP cfg cfg.endAddr + k * cfg.PGSIZE) / cfg.PGSIZE
      · rw [hother i hi]; rfl
      · push_neg at hi
        obtain ⟨k, hk, hik⟩ := hi
        rw [hik]
        exact hzero k hk
    have hcover : ∀ pa, isValidPA cfg pa →
        pa ∈ frameList cfg (PGROUNDUP cfg cfg.endAddr)
          ((cfg.PHYSTOP - PGROUNDUP cfg cfg.endAddr) / cfg.PGSIZE) := by
      intro pa ⟨h1, h2, h3⟩
      rw [mem_frameList cfg hPG _ _ _ hp0al]
      refine ⟨h1, roundup_le_valid cfg hPG h1 h2, by omega⟩
    have hfl' : s'.freelist = (frameList cfg (PGROUNDUP cfg cfg.endAddr)
        ((cfg.PHYSTOP - PGROUNDUP cfg cfg.endAddr) / cfg.PGSIZE)).reverse := by
      rw [hfl]
      simp [initState]
    have hcnt' : s'.free_pages_count
        = ((cfg.PHYSTOP - PGROUNDUP cfg cfg.endAddr) / cfg.PGSIZE : Nat) := by
      rw [hcnt]
      simp [initState]
    refine ⟨s', heq, ?_, ?_, ?_, ?_, ?_⟩
    · intro pa hpa
      rw [hfl'] at hpa
      rw [List.mem_reverse, mem_frameList cfg hPG _ _ _ hp0al] at hpa
      exact ⟨hpa.1, Nat.le_trans hp0ge hpa.2.1, by omega⟩
    · rw [hfl']
      rw [List.nodup_reverse]
      exact frameList_nodup cfg hPG _ _
    · intro pa hpav
      rw [hfl', List.mem_reverse]
      constructor
      · intro _; exact hcover pa hpav
      · intro _; exact hallzero _
    · intro pa _
      rw [hallzero]
    · rw [hcnt', hfl']
      simp
  · have hz : cfg.PHYSTOP - PGROUNDUP cfg cfg.endAddr = 0 := by omega
    refine ⟨{ initState with free_pages_count := 0 }, ?_, ?_, ?_, ?_, ?_, ?_⟩
    · show freerangeLoop cfg (PGROUNDUP cfg cfg.endAddr)
        ((cfg.PHYSTOP - PGROUNDUP cfg cfg.endAddr) / cfg.PGSIZE)
        { initState with free_pages_count := 0 } = some _
      rw [hz]
      simp [freerangeLoop]
    · intro pa hpa
      simp [initState] at hpa
    · simp [initState]
    · intro pa ⟨h1, h2, h3⟩
      have := roundup_le_valid cfg hPG h1 h2
      omega
    · intro pa ⟨h1, h2, h3⟩
      have := roundup_le_valid cfg hPG h1 h2
      omega
    · simp [initState]

/-- Every reachable state satisfies the allocator invariant. -/
theorem reachable_inv (cfg : Cfg) (s : KState) (hPG : 0 < cfg.PGSIZE)
    (hTop : cfg.PHYSTOP % cfg.PGSIZE = 0) (h : Reachable cfg s) : AllocInv cfg s := by
  induction h with
  | init s hs =>
      obtain ⟨s', heq, hinv⟩ := kinit_sound cfg hPG hTop
      rw [hs] at heq
      injection heq with heq
      rw [heq]
      exact hinv
  | alloc s _ ih => exact AllocInv_kalloc cfg s hPG ih
  | free s s' pa _ hv hc heq ih => exact AllocInv_kfree cfg s s' pa hPG ih hv hc heq
  | inc s pa _ hv hc ih => exact AllocInv_kref_inc cfg s pa hPG ih hv hc

/-! ### Allocation sequences -/

theorem kinit_cfg0 : kinit cfg0 = some s0 := by
  unfold s0
  exact (Option.some_get _).symm

/-- Draining a free list of known contents: the first `|l|` calls return
exactly the members of `l` in order, empty the list, and lower the counter
by `|l|`. -/
theorem kallocSeq_drain (cfg : Cfg) :
    ∀ (l : List Nat) (s : KState), s.freelist = l →
      (kallocSeq cfg s l.length).1 = l.map some ∧
      (kallocSeq cfg s l.length).2.freelist = [] ∧
      (kallocSeq cfg s l.length).2.free_pages_count
        = s.free_pages_count - l.length := by
  intro l
  induction l with
  | nil =>
      intro s h
      exact ⟨rfl, h, by simp [kallocSeq]⟩
  | cons r rest ih =>
      intro s h
      have hfst : (kalloc cfg s).1 = some r := by rw [kalloc_cons cfg s r rest h]
      have hsnd_fl : (kalloc cfg s).2.freelist = rest := by
        rw [kalloc_cons cfg s r rest h]
      have hsnd_cnt : (kalloc cfg s).2.free_pages_count = s.free_pages_count - 1 := by
        rw [kalloc_cons cfg s r rest h]
      obtain ⟨ih1, ih2, ih3⟩ := ih (kalloc cfg s).2 hsnd_fl
      simp only [List.length_cons, kallocSeq]
      refine ⟨?_, ih2, ?_⟩
      · rw [hfst, ih1]
        rfl
      · rw [ih3, hsnd_cnt]
        push_cast
        ring

/-- Unrolling the last call of a `kallocSeq`. -/
theorem kallocSeq_snoc (cfg : Cfg) :
    ∀ (n : Nat) (s : KState),
      (kallocSeq cfg s (n + 1)).1
        = (kallocSeq cfg s n).1 ++ [(kalloc cfg (kallocSeq cfg s n).2).1] ∧
      (kallocSeq cfg s (n + 1)).2 = (kalloc cfg (kallocSeq cfg s n).2).2 := by
  intro n
  induction n with
  | zero => intro s; exact ⟨rfl, rfl⟩
  | succ n ih =>
      intro s
      constructor
      · show (kalloc cfg s).1 :: (kallocSeq cfg (kalloc cfg s).2 (n + 1)).1 = _
        rw [(ih (kalloc cfg s).2).1]
        rfl
      · show (kallocSeq cfg (kalloc cfg s).2 (n + 1)).2 = _
        rw [(ih (kalloc cfg s).2).2]
        rfl

/-- `kinit` over a range of exactly `N` frames starting at an aligned
`endAddr`: the free list holds those `N` frames (most recently freed
first) and the counter is `N`. -/
theorem kinit_exact (cfg : Cfg) (N : Nat) (hPG : 0 < cfg.PGSIZE)
    (hal : cfg.endAddr % cfg.PGSIZE = 0)
    (hTop : cfg.PHYSTOP = cfg.endAddr + N * cfg.PGSIZE) :
    ∃ s, kinit cfg = some s ∧
      s.freelist = (frameList cfg cfg.endAddr N).reverse ∧
      s.free_pages_count = N := by
  unfold kinit freerange
  have hr : PGROUNDUP cfg cfg.endAddr = cfg.endAddr := PGROUNDUP_eq_of_aligned cfg hPG hal
  have hcount : (cfg.PHYSTOP - PGROUNDUP cfg cfg.endAddr) / cfg.PGSIZE = N := by
    rw [hr, hTop]
    have hsub : cfg.endAddr + N * cfg.PGSIZE - cfg.endAddr = N * cfg.PGSIZE := by omega
    rw [hsub]
    exact Nat.mul_div_cancel N hPG
  obtain ⟨s', heq, hfl, hcnt, _, _⟩ :=
    freerangeLoop_sound cfg hPG N cfg.endAddr { initState with free_pages_count := 0 }
      hal (Nat.le_refl _) (by omega)
  refine ⟨s', ?_, ?_, ?_⟩
  · show freerangeLoop cfg (PGROUNDUP cfg cfg.endAddr)
      ((cfg.PHYSTOP - PGROUNDUP cfg cfg.endAddr) / cfg.PGSIZE)
      { initState with free_pages_count := 0 } = some s'
    rw [hcount, hr]
    exact heq
  · rw [hfl]
    simp [initState]
  · rw [hcnt]
    simp [initState]

/-! ### Small step facts -/

theorem kref_inc_ref (cfg : Cfg) (s : KState) (pa : Nat) :
    (kref_inc cfg s pa).ref_counts (get_ref_index cfg pa)
      = s.ref_counts (get_ref_index cfg pa) + 1 := by
  rw [kref_inc_eq]
  simp [updf]

theorem kref_inc_freelist (cfg : Cfg) (s : KState) (pa : Nat) :
    (kref_inc cfg s pa).freelist = s.freelist := by
  rw [kref_inc_eq]

theorem kref_inc_count (cfg : Cfg) (s : KState) (pa : Nat) :
    (kref_inc cfg s pa).free_pages_count = s.free_pages_count := by
  rw [kref_inc_eq]

theorem kfree_step_pos (cfg : Cfg) (s : KState) (pa : Nat) (hv : isValidPA cfg pa)
    (hc : 0 < s.ref_counts (get_ref_index cfg pa) - 1) :
    ∃ s', kfree cfg s pa = some s' ∧
      s'.ref_counts (get_ref_index cfg pa)
        = s.ref_counts (get_ref_index cfg pa) - 1 ∧
      s'.freelist = s.freelist ∧
      s'.free_pages_count = s.free_pages_count := by
  refine ⟨_, kfree_valid_pos cfg s pa hv hc, ?_, rfl, rfl⟩
  simp [updf]

theorem kfree_step_recycle (cfg : Cfg) (s : KState) (pa : Nat) (hv : isValidPA cfg pa)
    (hc : s.ref_counts (get_ref_index cfg pa) - 1 ≤ 0) :
    ∃ s', kfree cfg s pa = some s' ∧
      s'.ref_counts (get_ref_index cfg pa)
        = s.ref_counts (get_ref_index cfg pa) - 1 ∧
      s'.freelist = pa :: s.freelist ∧
      s'.free_pages_count = s.free_pages_count + 1 := by
  refine ⟨_, kfree_valid_recycle cfg s pa hv hc, ?_, rfl, rfl⟩
  simp [updf]

/-! ### The claims -/

/-- C1: in every reachable allocator state (boot initialization followed by
any precondition-respecting sequence of allocate/free/incrementOwner calls),
a frame's reference count is 0 exactly when the frame is a member of the
free list, and `kmem.free_pages_count` equals the number of free-list
members. -/
theorem C1_free_count_invariant (cfg : Cfg) (s : KState) (hPG : 0 < cfg.PGSIZE)
    (hTop : cfg.PHYSTOP % cfg.PGSIZE = 0) (hr : Reachable cfg s) :
    (∀ pa, isValidPA cfg pa →
      (s.ref_counts (get_ref_index cfg pa) = 0 ↔ pa ∈ s.freelist)) ∧
    s.free_pages_count = s.freelist.length := by
  obtain ⟨_, _, hiff, _, hcnt⟩ := reachable_inv cfg s hPG hTop hr
  exact ⟨hiff, hcnt⟩

theorem C1_free_count_invariant_witness :
    (0 < cfg0.PGSIZE) ∧ cfg0.PHYSTOP % cfg0.PGSIZE = 0 ∧
    (s0.ref_counts (get_ref_index cfg0 4096) = 0 ↔ 4096 ∈ s0.freelist) ∧
    s0.free_pages_count = s0.freelist.length := by
  have h := C1_free_count_invariant cfg0 s0 (by decide) (by decide)
    (Reachable.init s0 kinit_cfg0)
  exact ⟨by decide, by decide, h.1 4096 (by decide), h.2⟩

/-- C6: `kfree(pa)` halts the system exactly when `pa` is not frame-aligned,
or lies below the start of the managed range, or lies at or above its top;
on every other address execution continues past the validation. -/
theorem C6_kfree_panic_iff_invalid (cfg : Cfg) (s : KState) (pa : Nat) :
    kfree cfg s pa = none ↔
      (pa % cfg.PGSIZE ≠ 0 ∨ pa < cfg.endAddr ∨ cfg.PHYSTOP ≤ pa) := by
  constructor
  · intro h
    by_contra hne
    push_neg at hne
    obtain ⟨h1, h2, h3⟩ := hne
    have hv : isValidPA cfg pa := ⟨h1, h2, h3⟩
    by_cases hc : 0 < s.ref_counts (get_ref_index cfg pa) - 1
    · rw [kfree_valid_pos cfg s pa hv hc] at h
      exact Option.noConfusion h
    · rw [kfree_valid_recycle cfg s pa hv (by omega)] at h
      exact Option.noConfusion h
  · intro h
    unfold kfree
    rw [if_pos h]

/-- C7: for every in-range frame and starting count, `kref_dec` subtracts
exactly one from the frame's reference count and returns the post-decrement
value; in particular a decrement from 0 is unguarded and returns -1. -/
theorem C7_kref_dec_subtracts_one (cfg : Cfg) (s : KState) (pa : Nat)
    (hv : isValidPA cfg pa) :
    (kref_dec cfg s pa).1 = s.ref_counts (get_ref_index cfg pa) - 1 ∧
    (kref_dec cfg s pa).2.ref_counts (get_ref_index cfg pa)
      = s.ref_counts (get_ref_index cfg pa) - 1 ∧
    (s.ref_counts (get_ref_index cfg pa) = 0 → (kref_dec cfg s pa).1 = -1) := by
  rw [kref_dec_eq]
  refine ⟨rfl, by simp [updf], ?_⟩
  intro h
  simp [h]

theorem C7_kref_dec_subtracts_one_witness :
    isValidPA cfg0 4096 ∧
    ((kref_dec cfg0 s0 4096).1 = s0.ref_counts (get_ref_index cfg0 4096) - 1 ∧
      (kref_dec cfg0 s0 4096).2.ref_counts (get_ref_index cfg0 4096)
        = s0.ref_counts (get_ref_index cfg0 4096) - 1 ∧
      (s0.ref_counts (get_ref_index cfg0 4096) = 0 →
        (kref_dec cfg0 s0 4096).1 = -1)) :=
  ⟨by decide, C7_kref_dec_subtracts_one cfg0 s0 4096 (by decide)⟩

/-- C2 counterexample: with an empty free list, `kalloc` returns NULL (an
unsuccessful allocation) and yet still emits one diagnostic line, so it is
not exactly the successful calls that emit. -/
theorem C2_emit_on_failure_cex :
    (kalloc cfg0 initState).1 = none ∧
    (kalloc cfg0 initState).2.output = [0] ∧
    initState.output = [] :=
  ⟨rfl, rfl, rfl⟩

/-- C2 (amended): every `kalloc` call — successful or failed — emits exactly
one diagnostic line carrying the current (post-call) free-page count, and
the emission itself changes neither the free list, the counter, the
reference counts nor the frame contents. -/
theorem C2_every_kalloc_emits (cfg : Cfg) (s : KState) :
    (kalloc cfg s).2.output = s.output ++ [(kalloc cfg s).2.free_pages_count] ∧
    (∀ (t : KState) (n : Int),
      (emitLine t n).freelist = t.freelist ∧
      (emitLine t n).free_pages_count = t.free_pages_count ∧
      (emitLine t n).ref_counts = t.ref_counts ∧
      (emitLine t n).fill = t.fill) := by
  constructor
  · cases h : s.freelist with
    | nil => rw [kalloc_nil cfg s h]
    | cons r rest => rw [kalloc_cons cfg s r rest h]
  · intro t n
    exact ⟨rfl, rfl, rfl, rfl⟩

/-- C9: `kalloc` on an empty free list returns NULL but is not
state-preserving: it overwrites reference-count entry 0 (the index computed
from the NULL pointer) with 1 and emits the status line, while leaving the
free list and the counter unchanged. -/
theorem C9_kalloc_empty_side_effects (cfg : Cfg) (s : KState)
    (h : s.freelist = []) :
    (kalloc cfg s).1 = none ∧
    (kalloc cfg s).2.ref_counts 0 = 1 ∧
    (∀ i, i ≠ 0 → (kalloc cfg s).2.ref_counts i = s.ref_counts i) ∧
    (kalloc cfg s).2.output = s.output ++ [s.free_pages_count] ∧
    (kalloc cfg s).2.freelist = s.freelist ∧
    (kalloc cfg s).2.free_pages_count = s.free_pages_count := by
  rw [kalloc_nil cfg s h]
  refine ⟨rfl, ?_, ?_, rfl, rfl, rfl⟩
  · simp [updf, get_ref_index]
  · intro i hi
    simp [updf, get_ref_index, hi]

theorem C9_kalloc_empty_side_effects_witness :
    initState.freelist = [] ∧
    (kalloc cfg0 initState).1 = none ∧
    (kalloc cfg0 initState).2.ref_counts 0 = 1 ∧
    (kalloc cfg0 initState).2.ref_counts 7 = initState.ref_counts 7 ∧
    (kalloc cfg0 initState).2.output
      = initState.output ++ [initState.free_pages_count] ∧
    (kalloc cfg0 initState).2.freelist = initState.freelist ∧
    (kalloc cfg0 initState).2.free_pages_count = initState.free_pages_count := by
  have h := C9_kalloc_empty_side_effects cfg0 initState rfl
  exact ⟨rfl, h.1, h.2.1, h.2.2.1 7 (by decide), h.2.2.2.1, h.2.2.2.2.1,
    h.2.2.2.2.2⟩

/-- C10: `kfree` recycles a valid frame whenever the post-decrement count is
≤ 0, not only at exactly 0: freeing a frame whose count is already 0 drives
the count to -1, fills the frame with the release pattern, pushes it onto
the free list (duplicating the entry if it was already free) and increments
the counter. -/
theorem C10_kfree_recycles_nonpositive (cfg : Cfg) (s : KState) (pa : Nat)
    (hv : isValidPA cfg pa) (hc : s.ref_counts (get_ref_index cfg pa) ≤ 0) :
    ∃ s', kfree cfg s pa = some s' ∧
      s'.ref_counts (get_ref_index cfg pa)
        = s.ref_counts (get_ref_index cfg pa) - 1 ∧
      s'.fill pa = some 1 ∧
      s'.freelist = pa :: s.freelist ∧
      s'.free_pages_count = s.free_pages_count + 1 ∧
      (s.ref_counts (get_ref_index cfg pa) = 0 →
        s'.ref_counts (get_ref_index cfg pa) = -1) ∧
      (pa ∈ s.freelist → ¬ s'.freelist.Nodup) := by
  refine ⟨_, kfree_valid_recycle cfg s pa hv (by omega), ?_, ?_, rfl, rfl, ?_, ?_⟩
  · simp [updf]
  · simp [updFill]
  · intro h0
    simp [updf, h0]
  · intro hmem
    simp [List.nodup_cons, hmem]

theorem C10_kfree_recycles_nonpositive_witness :
    isValidPA cfg0 4096 ∧ s0.ref_counts (get_ref_index cfg0 4096) ≤ 0 ∧
    (∃ s', kfree cfg0 s0 4096 = some s' ∧
      s'.ref_counts (get_ref_index cfg0 4096)
        = s0.ref_counts (get_ref_index cfg0 4096) - 1 ∧
      s'.fill 4096 = some 1 ∧
      s'.freelist = 4096 :: s0.freelist ∧
      s'.free_pages_count = s0.free_pages_count + 1 ∧
      (s0.ref_counts (get_ref_index cfg0 4096) = 0 →
        s'.ref_counts (get_ref_index cfg0 4096) = -1) ∧
      (4096 ∈ s0.freelist → ¬ s'.freelist.Nodup)) :=
  ⟨by decide, by decide,
    C10_kfree_recycles_nonpositive cfg0 s0 4096 (by decide) (by decide)⟩

/-- C8: in every execution of allocate, free and incrementOwner, no lock is
ever held while another is acquired: each operation's lock-event trace
replays from an empty held set without any nested acquisition, so no
wait-for cycle between `kmem.lock` and `ref_lock` can form. -/
theorem C8_lock_discipline (cfg : Cfg) (s : KState) (pa : Nat) :
    ((kalloc cfg s).2.events = s.events ++ kallocTrace ∧
      noNestedAcq kallocTrace [] = true) ∧
    ((kref_inc cfg s pa).events = s.events ++ krefIncTrace ∧
      noNestedAcq krefIncTrace [] = true) ∧
    ((∀ s', kfree cfg s pa = some s' →
        s'.events = s.events ++ kfreeTrace cfg s pa) ∧
      noNestedAcq (kfreeTrace cfg s pa) [] = true) := by
  refine ⟨⟨?_, rfl⟩, ⟨?_, rfl⟩, ⟨?_, ?_⟩⟩
  · cases h : s.freelist with
    | nil => rw [kalloc_nil cfg s h]; rfl
    | cons r rest => rw [kalloc_cons cfg s r rest h]; rfl
  · rw [kref_inc_eq]; rfl
  · intro s' hs'
    by_cases hv : isValidPA cfg pa
    · have h1 := hv.1
      have h2 := hv.2.1
      have h3 := hv.2.2
      by_cases hc : 0 < s.ref_counts (get_ref_index cfg pa) - 1
      · rw [kfree_valid_pos cfg s pa hv hc] at hs'
        injection hs' with hs'
        subst hs'
        unfold kfreeTrace
        rw [if_neg (by omega), if_pos hc]
      · rw [kfree_valid_recycle cfg s pa hv (by omega)] at hs'
        injection hs' with hs'
        subst hs'
        unfold kfreeTrace
        rw [if_neg (by omega), if_neg hc]
    · rw [kfree_invalid cfg s pa hv] at hs'
      exact Option.noConfusion hs'
  · unfold kfreeTrace
    split
    · rfl
    · split
      · rfl
      · rfl

theorem C8_lock_discipline_witness :
    (kalloc cfg0 s0).2.events = s0.events ++ kallocTrace ∧
    noNestedAcq kallocTrace [] = true ∧
    (kref_inc cfg0 s0 4096).events = s0.events ++ krefIncTrace ∧
    noNestedAcq (kfreeTrace cfg0 s0 4096) [] = true := by
  have h := C8_lock_discipline cfg0 s0 4096
  exact ⟨h.1.1, h.1.2, h.2.1.1, h.2.2.2⟩

/-- C4: from any reachable state with a non-empty free list, a successful
allocate immediately followed by a free of the returned frame restores the
counter to its prior value and puts the frame back on the free list, where
the next allocate returns it again. -/
theorem C4_alloc_free_roundtrip (cfg : Cfg) (s : KState) (hPG : 0 < cfg.PGSIZE)
    (hTop : cfg.PHYSTOP % cfg.PGSIZE = 0) (hr : Reachable cfg s)
    (hne : s.freelist ≠ []) :
    ∃ pa s1 s2, kalloc cfg s = (some pa, s1) ∧ kfree cfg s1 pa = some s2 ∧
      s2.free_pages_count = s.free_pages_count ∧
      pa ∈ s2.freelist ∧ (kalloc cfg s2).1 = some pa := by
  obtain ⟨hvalid, _, _, _, _⟩ := reachable_inv cfg s hPG hTop hr
  obtain ⟨r, rest, hfl⟩ : ∃ r rest, s.freelist = r :: rest := by
    cases h : s.freelist with
    | nil => exact absurd h hne
    | cons a l => exact ⟨a, l, rfl⟩
  have hrv : isValidPA cfg r := hvalid r (by rw [hfl]; exact List.mem_cons_self r rest)
  have hk := kalloc_cons cfg s r rest hfl
  have hfst : (kalloc cfg s).1 = some r := by rw [hk]
  have hpair : kalloc cfg s = (some r, (kalloc cfg s).2) := by rw [← hfst]
  have h1cnt : (kalloc cfg s).2.free_pages_count = s.free_pages_count - 1 := by
    rw [hk]
  have h1ref : (kalloc cfg s).2.ref_counts (get_ref_index cfg r) = 1 := by
    rw [hk]
    simp [updf]
  obtain ⟨s2, hfree, _, h2fl, h2cnt⟩ :=
    kfree_step_recycle cfg (kalloc cfg s).2 r hrv (by rw [h1ref]; norm_num)
  refine ⟨r, (kalloc cfg s).2, s2, hpair, hfree, ?_, ?_, ?_⟩
  · rw [h2cnt, h1cnt]
    ring
  · rw [h2fl]
    exact List.mem_cons_self _ _
  · rw [kalloc_cons cfg s2 r ((kalloc cfg s).2.freelist) h2fl]

theorem C4_alloc_free_roundtrip_witness :
    s0.freelist ≠ [] ∧
    (∃ pa s1 s2, kalloc cfg0 s0 = (some pa, s1) ∧ kfree cfg0 s1 pa = some s2 ∧
      s2.free_pages_count = s0.free_pages_count ∧
      pa ∈ s2.freelist ∧ (kalloc cfg0 s2).1 = some pa) :=
  ⟨by decide, C4_alloc_free_roundtrip cfg0 s0 (by decide) (by decide)
    (Reachable.init s0 kinit_cfg0) (by decide)⟩

/-- C5: for a frame returned by a successful allocate from a reachable
state, two incrementOwner calls bring its count to 3; the next two frees
each decrement the count without recycling (count 1, frame off the free
list, counter untouched); the third free zeroes the count, pushes the frame
onto the free list and restores the counter to its pre-allocation value. -/
theorem C5_shared_ownership (cfg : Cfg) (s s1 : KState) (pa : Nat)
    (hPG : 0 < cfg.PGSIZE) (hTop : cfg.PHYSTOP % cfg.PGSIZE = 0)
    (hr : Reachable cfg s) (hk : kalloc cfg s = (some pa, s1)) :
    (kref_inc cfg (kref_inc cfg s1 pa) pa).ref_counts (get_ref_index cfg pa) = 3 ∧
    ∃ sB, kfree cfg (kref_inc cfg (kref_inc cfg s1 pa) pa) pa = some sB ∧
      sB.ref_counts (get_ref_index cfg pa) = 2 ∧ pa ∉ sB.freelist ∧
      sB.free_pages_count = s1.free_pages_count ∧
      ∃ sC, kfree cfg sB pa = some sC ∧
        sC.ref_counts (get_ref_index cfg pa) = 1 ∧ pa ∉ sC.freelist ∧
        sC.free_pages_count = s1.free_pages_count ∧
        ∃ sD, kfree cfg sC pa = some sD ∧
          sD.ref_counts (get_ref_index cfg pa) = 0 ∧ pa ∈ sD.freelist ∧
          sD.free_pages_count = s.free_pages_count := by
  obtain ⟨hvalid, hnodup, _, _, _⟩ := reachable_inv cfg s hPG hTop hr
  obtain ⟨r, rest, hfl⟩ : ∃ r rest, s.freelist = r :: rest := by
    cases h : s.freelist with
    | nil =>
        rw [kalloc_nil cfg s h] at hk
        have : (none : Option Nat) = some pa := congrArg Prod.fst hk
        exact Option.noConfusion this
    | cons a l => exact ⟨a, l, rfl⟩
  have hk' := kalloc_cons cfg s r rest hfl
  rw [hk'] at hk
  have hpa : r = pa := by
    have := congrArg Prod.fst hk
    exact Option.some.inj this
  subst hpa
  have h2 : _ = s1 := congrArg Prod.snd hk
  have hpav : isValidPA cfg r := hvalid r (by rw [hfl]; exact List.mem_cons_self r rest)
  have hnotmem : r ∉ rest := by
    rw [hfl] at hnodup
    exact (List.nodup_cons.mp hnodup).1
  have h1ref : s1.ref_counts (get_ref_index cfg r) = 1 := by
    rw [← h2]
    simp [updf]
  have h1fl : s1.freelist = rest := by rw [← h2]
  have h1cnt : s1.free_pages_count = s.free_pages_count - 1 := by rw [← h2]
  have hAref : (kref_inc cfg (kref_inc cfg s1 r) r).ref_counts
      (get_ref_index cfg r) = 3 := by
    rw [kref_inc_ref, kref_inc_ref, h1ref]
    norm_num
  have hAfl : (kref_inc cfg (kref_inc cfg s1 r) r).freelist = rest := by
    rw [kref_inc_freelist, kref_inc_freelist, h1fl]
  have hAcnt : (kref_inc cfg (kref_inc cfg s1 r) r).free_pages_count
      = s.free_pages_count - 1 := by
    rw [kref_inc_count, kref_inc_count, h1cnt]
  obtain ⟨sB, hB, hBref, hBfl, hBcnt⟩ :=
    kfree_step_pos cfg (kref_inc cfg (kref_inc cfg s1 r) r) r hpav
      (by rw [hAref]; norm_num)
  rw [hAref] at hBref
  norm_num at hBref
  obtain ⟨sC, hC, hCref, hCfl, hCcnt⟩ :=
    kfree_step_pos cfg sB r hpav (by rw [hBref]; norm_num)
  rw [hBref] at hCref
  norm_num at hCref
  obtain ⟨sD, hD, hDref, hDfl, hDcnt⟩ :=
    kfree_step_recycle cfg sC r hpav (by rw [hCref]; norm_num)
  refine ⟨hAref, sB, hB, hBref, ?_, ?_, sC, hC, hCref, ?_, ?_, sD, hD, ?_, ?_, ?_⟩
  · rw [hBfl, hAfl]
    exact hnotmem
  · rw [hBcnt, hAcnt, h1cnt]
  · rw [hCfl, hBfl, hAfl]
    exact hnotmem
  · rw [hCcnt, hBcnt, hAcnt, h1cnt]
  · rw [hDref, hCref]
    norm_num
  · rw [hDfl]
    exact List.mem_cons_self _ _
  · rw [hDcnt, hCcnt, hBcnt, hAcnt]
    ring

theorem C5_shared_ownership_witness :
    (kalloc cfg0 s0).1 = some 8192 ∧
    ((kref_inc cfg0 (kref_inc cfg0 (kalloc cfg0 s0).2 8192) 8192).ref_counts
        (get_ref_index cfg0 8192) = 3 ∧
      ∃ sB, kfree cfg0 (kref_inc cfg0 (kref_inc cfg0 (kalloc cfg0 s0).2 8192) 8192)
          8192 = some sB ∧
        sB.ref_counts (get_ref_index cfg0 8192) = 2 ∧ 8192 ∉ sB.freelist ∧
        sB.free_pages_count = (kalloc cfg0 s0).2.free_pages_count ∧
        ∃ sC, kfree cfg0 sB 8192 = some sC ∧
          sC.ref_counts (get_ref_index cfg0 8192) = 1 ∧ 8192 ∉ sC.freelist ∧
          sC.free_pages_count = (kalloc cfg0 s0).2.free_pages_count ∧
          ∃ sD, kfree cfg0 sC 8192 = some sD ∧
            sD.ref_counts (get_ref_index cfg0 8192) = 0 ∧ 8192 ∈ sD.freelist ∧
            sD.free_pages_count = s0.free_pages_count) := by
  have h1 : (kalloc cfg0 s0).1 = some 8192 := by decide
  refine ⟨h1, C5_shared_ownership cfg0 s0 (kalloc cfg0 s0).2 8192 (by decide)
    (by decide) (Reachable.init s0 kinit_cfg0) ?_⟩
  rw [← h1]

/-- C3: after `initialize(start, start + N*frameSize)` the counter is `N`;
the next `N` allocations all succeed, returning pairwise distinct frames,
the `(N+1)`-th returns the failure value, the counter is 0 after the `N`-th
success, and the failed call leaves the counter at 0. -/
theorem C3_init_exhaustion (cfg : Cfg) (N : Nat) (hPG : 0 < cfg.PGSIZE)
    (hal : cfg.endAddr % cfg.PGSIZE = 0)
    (hTop : cfg.PHYSTOP = cfg.endAddr + N * cfg.PGSIZE) :
    ∃ s1, kinit cfg = some s1 ∧
      s1.free_pages_count = N ∧
      (kallocSeq cfg s1 (N + 1)).1
        = (frameList cfg cfg.endAddr N).reverse.map some ++ [none] ∧
      ((frameList cfg cfg.endAddr N).reverse).Nodup ∧
      (kallocSeq cfg s1 N).2.free_pages_count = 0 ∧
      (kallocSeq cfg s1 (N + 1)).2.free_pages_count = 0 := by
  obtain ⟨s1, hinit, hfl, hcnt⟩ := kinit_exact cfg N hPG hal hTop
  have hlen : ((frameList cfg cfg.endAddr N).reverse).length = N := by simp
  obtain ⟨hd1, hd2, hd3⟩ :=
    kallocSeq_drain cfg ((frameList cfg cfg.endAddr N).reverse) s1 hfl
  rw [hlen] at hd1 hd2 hd3
  have hcnt0 : (kallocSeq cfg s1 N).2.free_pages_count = 0 := by
    rw [hd3, hcnt]
    simp
  have hsnoc := kallocSeq_snoc cfg N s1
  have hfail := kalloc_nil cfg (kallocSeq cfg s1 N).2 hd2
  refine ⟨s1, hinit, hcnt, ?_, ?_, hcnt0, ?_⟩
  · rw [hsnoc.1, hd1, hfail]
  · rw [List.nodup_reverse]
    exact frameList_nodup cfg hPG _ _
  · rw [hsnoc.2, hfail]
    exact hcnt0

theorem C3_init_exhaustion_witness :
    (0 < cfg0.PGSIZE) ∧ cfg0.endAddr % cfg0.PGSIZE = 0 ∧
    cfg0.PHYSTOP = cfg0.endAddr + 2 * cfg0.PGSIZE ∧
    (∃ s1, kinit cfg0 = some s1 ∧
      s1.free_pages_count = 2 ∧
      (kallocSeq cfg0 s1 (2 + 1)).1
        = (frameList cfg0 cfg0.endAddr 2).reverse.map some ++ [none] ∧
      ((frameList cfg0 cfg0.endAddr 2).reverse).Nodup ∧
      (kallocSeq cfg0 s1 2).2.free_pages_count = 0 ∧
      (kallocSeq cfg0 s1 (2 + 1)).2.free_pages_count = 0) :=
  ⟨by decide, by decide, by decide,
    C3_init_exhaustion cfg0 2 (by decide) (by decide) (by decide)⟩
